import Mathlib

/-!
Verification of `r53_record_cleanup.py` (Signiant/r53_record_cleanup).

Shallow embedding of the core of the script: the keep-list expansion, the
paginated record lister, the record filter of `r53_cleanup`, the chunked
change-batch submission loop shared by `delete_records` and
`restore_deleted_records`, the snapshot (YAML) serialization used between
the delete run and a later restore run, and the event order of the orchestrator
(snapshot write, rename, delete calls).

Conventions of the embedding:
  * Python dicts for records become the `ResourceRecord` structure; the
    provider fields other than `Name`, `Type` and `AliasTarget` are kept in
    the `extra` association list (the snapshot preserves them, the restore
    path ignores them).
  * Fallible dictionary accesses (the AliasTarget lookup on a record) become `Option`;
    a `KeyError` / `IndexError` aborting the process is `none`.
  * Provider calls are not performed; a batching run instead returns the
    list of `Submission` values it would send, in submission order, and the
    orchestrator returns the ordered list of `CleanupEvent`s it performs.
  * The provider behind the paginated lister is a list of responses
    (`Except` values), consumed one per API call; `Except.error` is a
    `botocore` `ClientError` raised at that call.
-/

/-- The `AliasTarget` sub-dictionary of a Route53 record. -/
structure AliasTarget where
  hostedZoneId : String
  dnsName : String
  evaluateTargetHealth : Bool
deriving DecidableEq

/-- A resource record set as returned by `list_resource_record_sets`.
`extra` carries the provider fields other than `Name`, `Type` and
`AliasTarget` (e.g. `TTL`); they are serialized into the snapshot but
never read by the script. -/
structure ResourceRecord where
  name : String
  type : String
  aliasTarget : Option AliasTarget
  extra : List (String × String)
deriving DecidableEq

/-- Python endswith with the one-character dot suffix the script uses: the
last character of `s` is a dot. -/
def endsWithDot (s : String) : Bool :=
  s.data.getLast? == some '.'

/-- Trailing-dot normalization the script applies to zone names and to the
target alias: append a dot unless the string already ends with one. -/
def withTrailingDot (s : String) : String :=
  if endsWithDot s then s else s ++ "."

/-- Model of `expand_keep_list` (src lines 14-17): normalizes the zone name
and replaces every keep-list entry `x` with `x` plus a dot plus the
normalized zone name. The global `KEEP_LIST` becomes an explicit
argument/result. -/
def expand_keep_list (zone_name : String) (keep_list : List String) : List String :=
  keep_list.map fun x => x ++ "." ++ withTrailingDot zone_name

/-- One response of `list_resource_record_sets` (the fields the script
reads). -/
structure RecordPage where
  resourceRecordSets : List ResourceRecord
  isTruncated : Bool
  nextRecordName : String
deriving DecidableEq

/-- The accumulation loop of `get_all_records_in_zone` (src lines 57-69):
extend with the current page; while `IsTruncated`, fetch the next page.
A `ClientError` (`Except.error`) at any call is caught and the records
accumulated so far are returned. -/
def listRecordsGo : List (Except Unit RecordPage) → List ResourceRecord → List ResourceRecord
  | [], acc => acc
  | Except.error _ :: _, acc => acc
  | Except.ok page :: rest, acc =>
    if page.isTruncated then listRecordsGo rest (acc ++ page.resourceRecordSets)
    else acc ++ page.resourceRecordSets

/-- Model of `get_all_records_in_zone` (src lines 54-69), with the provider
modelled as the list of responses it will give to the successive calls. -/
def get_all_records_in_zone (responses : List (Except Unit RecordPage)) : List ResourceRecord :=
  listRecordsGo responses []

/-- The chunking loop shared by `delete_records` (src lines 130-167) and
`restore_deleted_records` (src lines 87-120): `records_processed` always
equals `start_record`, so the loop runs while `start_record < length`;
`end_record = start_record + 100` clamped to the length, and the chunk is
the slice `record_list[start_record:end_record]`. -/
def chunkLoop (record_list : List ResourceRecord) (start_record : Nat) : List (List ResourceRecord) :=
  if h : start_record < record_list.length then
    (record_list.drop start_record).take
        (min (start_record + 100) record_list.length - start_record)
      :: chunkLoop record_list (min (start_record + 100) record_list.length)
  else []
termination_by record_list.length - start_record
decreasing_by simp_wf; omega

/-- The minimal resource-record descriptor rebuilt for each record of a
chunk (src lines 146-154 and 100-108): `Name`, `Type` and the three
`AliasTarget` fields. -/
structure ChangeRecordSet where
  name : String
  type : String
  aliasTarget : AliasTarget
deriving DecidableEq

/-- One change entry: an Action tag paired with a ResourceRecordSet. -/
structure Change where
  action : String
  resourceRecordSet : ChangeRecordSet
deriving DecidableEq

/-- One `change_resource_record_sets` call: the `HostedZoneId` argument and
the change batch (`Comment` + `Changes`). -/
structure Submission where
  hostedZoneId : String
  comment : String
  changes : List Change
deriving DecidableEq

/-- Descriptor built from the AliasTarget lookups on one record; `none` is
the KeyError raised when the record has no AliasTarget entry. -/
def descriptorOf (record : ResourceRecord) : Option ChangeRecordSet :=
  record.aliasTarget.map fun t =>
    { name := record.name, type := record.type, aliasTarget := t }

/-- Monadic map over `Option` that stops at the first failure — the shape of
the per-record loops, which abort the process at the first `KeyError`. -/
def optionMapAll (f : α → Option β) : List α → Option (List β)
  | [] => some []
  | a :: as => (f a).bind fun b => (optionMapAll f as).map fun bs => b :: bs

/-- The `change_set` built for one chunk (src lines 145-156 / 99-110). -/
def buildChangeSet (action : String) (chunk : List ResourceRecord) : Option (List Change) :=
  optionMapAll (fun record => (descriptorOf record).map fun d =>
    { action := action, resourceRecordSet := d }) chunk

/-- The body of one loop iteration: read the alias-target zone id of the
first record of the chunk as the destination zone id, build the change
set, and submit one change batch. `none` is an IndexError or KeyError
aborting the run. -/
def submitChunk (action comment : String) (chunk : List ResourceRecord) : Option Submission :=
  chunk.head?.bind fun first =>
    first.aliasTarget.bind fun t =>
      (buildChangeSet action chunk).map fun change_set =>
        { hostedZoneId := t.hostedZoneId, comment := comment, changes := change_set }

/-- Model of `delete_records` (src lines 125-167): chunk the list and submit
one DELETE change batch per chunk, in order. -/
def delete_records (record_list : List ResourceRecord) : Option (List Submission) :=
  optionMapAll (submitChunk "DELETE" "Deleting resource records") (chunkLoop record_list 0)

/-- The batching loop of `restore_deleted_records` (src lines 87-121),
applied to the record list loaded from the snapshot file: one UPSERT change
batch per chunk, in order. (The file-existence check and the YAML load are
modelled by `snapshot_load` below.) -/
def restore_deleted_records (records : List ResourceRecord) : Option (List Submission) :=
  optionMapAll (submitChunk "UPSERT" "Restoring resource records") (chunkLoop records 0)

/-- One iteration of the filter loop of `r53_cleanup` (src lines 179-199):
the nested conditions, in source order, each `continue`/skip branch
returning `to_delete` unchanged and the innermost match appending the
record. -/
def filterStep (zone_name target_alias : String) (keep_list : List String)
    (to_delete : List ResourceRecord) (record : ResourceRecord) : List ResourceRecord :=
  if record.type = "A" then
    if record.name = zone_name then to_delete
    else if record.name ∉ keep_list then
      match record.aliasTarget with
      | some t => if t.dnsName = target_alias then to_delete ++ [record] else to_delete
      | none => to_delete
    else to_delete
  else to_delete

/-- The filter loop of `r53_cleanup`: fold `filterStep` over the record set
starting from the empty `to_delete` list. `zone_name` is the resolved
`Name` of the resolved zone (trailing dot included) and `target_alias` is
the alias after the trailing-dot normalization at src lines 175-176. -/
def r53_filter (zone_name target_alias : String) (keep_list : List String)
    (record_set : List ResourceRecord) : List ResourceRecord :=
  record_set.foldl (filterStep zone_name target_alias keep_list) []

/-- Spec-side candidate predicate (§4.3 / §8 of the spec, and claim C1):
type is `A`, name differs from the zone apex, name not in the expanded
keep list, an alias target is present and its DNS name equals the
normalized target alias. Stated from the wording of the spec, to be
compared with `r53_filter`. -/
def isCandidate (zone_name target_alias : String) (keep_list : List String)
    (record : ResourceRecord) : Bool :=
  record.type == "A" && record.name != zone_name && !(keep_list.contains record.name) &&
    match record.aliasTarget with
    | some t => t.dnsName == target_alias
    | none => false

/-- Observable steps of the delete workflow of `r53_cleanup`
(src lines 201-219): the snapshot dump into the temporary file, the rename
to the final `.yaml` path, and each delete change-batch call. -/
inductive CleanupEvent where
  | snapshotWrite (records : List ResourceRecord) (path : String)
  | snapshotRename (src dst : String)
  | deleteCall (submission : Submission)
deriving DecidableEq

/-- Model of `r53_cleanup` (src lines 170-219) after zone resolution and
record listing: normalize the target alias, filter the record set, write the
snapshot and rename it, then — unless `dryrun` — run `delete_records` on
the candidates. Returns the ordered event trace, `none` when the delete
loop aborts. -/
def r53_cleanup (zone_name target_alias : String) (keep_list : List String)
    (record_set : List ResourceRecord) (temp_path : String) (dryrun : Bool) :
    Option (List CleanupEvent) :=
  let to_delete := r53_filter zone_name (withTrailingDot target_alias) keep_list record_set
  let snapshot_events := [CleanupEvent.snapshotWrite to_delete temp_path,
                          CleanupEvent.snapshotRename temp_path (temp_path ++ ".yaml")]
  if dryrun then some snapshot_events
  else (delete_records to_delete).map fun subs =>
    snapshot_events ++ subs.map CleanupEvent.deleteCall

/-- YAML values as far as the snapshot format needs them. -/
inductive Yaml where
  | str (s : String)
  | bool (b : Bool)
  | arr (items : List Yaml)
  | dict (entries : List (String × Yaml))

/-- Dictionary lookup on a YAML value (`loaded[key]`); `none` on a non-dict
or a missing key. -/
def Yaml.lookup (y : Yaml) (key : String) : Option Yaml :=
  match y with
  | .dict entries => entries.lookup key
  | _ => none

def Yaml.asStr : Yaml → Option String
  | .str s => some s
  | _ => none

def Yaml.asBool : Yaml → Option Bool
  | .bool b => some b
  | _ => none

/-- YAML image of an `AliasTarget` dict. -/
def aliasTargetToYaml (t : AliasTarget) : Yaml :=
  .dict [("DNSName", .str t.dnsName),
         ("EvaluateTargetHealth", .bool t.evaluateTargetHealth),
         ("HostedZoneId", .str t.hostedZoneId)]

/-- YAML image of one record dict as `yaml.safe_dump` writes it: the
`Name`/`Type` fields, the `AliasTarget` dict when present, and the other
provider fields. -/
def recordToYaml (r : ResourceRecord) : Yaml :=
  .dict ([("Name", .str r.name), ("Type", .str r.type)] ++
    (match r.aliasTarget with
     | some t => [("AliasTarget", aliasTargetToYaml t)]
     | none => []) ++
    r.extra.map fun kv => (kv.1, Yaml.str kv.2))

/-- Snapshot dump (src line 203): the snapshot file holds the YAML list of
the candidate records, in order. -/
def snapshot_dump (records : List ResourceRecord) : Yaml :=
  .arr (records.map recordToYaml)

/-- Snapshot load as performed at src line 82: the restore driver expects
the file to hold a list and iterates over its items. -/
def snapshot_load : Yaml → Option (List Yaml)
  | .arr items => some items
  | _ => none

/-- Name field read from a loaded snapshot item (src line 107). -/
def loadedName (y : Yaml) : Option String :=
  (y.lookup "Name").bind Yaml.asStr

/-- Type field read from a loaded snapshot item (src line 106). -/
def loadedType (y : Yaml) : Option String :=
  (y.lookup "Type").bind Yaml.asStr

/-- The three alias-target field accesses of the restore driver
(src lines 102-104) bundled back into an `AliasTarget`. -/
def aliasTargetFromYaml (y : Yaml) : Option AliasTarget :=
  ((y.lookup "HostedZoneId").bind Yaml.asStr).bind fun z =>
    ((y.lookup "DNSName").bind Yaml.asStr).bind fun d =>
      ((y.lookup "EvaluateTargetHealth").bind Yaml.asBool).map fun e =>
        { hostedZoneId := z, dnsName := d, evaluateTargetHealth := e }

/-- AliasTarget lookup, then its three fields, on a loaded snapshot
item. -/
def loadedAliasTarget (y : Yaml) : Option AliasTarget :=
  (y.lookup "AliasTarget").bind aliasTargetFromYaml

/-! Concrete sample data used by witnesses and counterexamples. -/

def atSample : AliasTarget :=
  { hostedZoneId := "Z2FDTNDATAQYW2", dnsName := "lb.example.com.", evaluateTargetHealth := false }

def recSample : ResourceRecord :=
  { name := "old.example.com.", type := "A", aliasTarget := some atSample, extra := [] }

def recNoAlias : ResourceRecord :=
  { name := "bare.example.com.", type := "A", aliasTarget := none, extra := [] }

def recTxt : ResourceRecord :=
  { name := "txt.example.com.", type := "TXT", aliasTarget := none, extra := [] }

def pageOne : RecordPage :=
  { resourceRecordSets := [recSample], isTruncated := true, nextRecordName := "old.example.com." }

def pageTwo : RecordPage :=
  { resourceRecordSets := [recNoAlias], isTruncated := false, nextRecordName := "" }

/-- A candidate record that also carries an extra provider field. -/
def recExtra : ResourceRecord :=
  { name := "web.example.com.", type := "A", aliasTarget := some atSample,
    extra := [("TTL", "300")] }

/-- The candidates `r53_cleanup` finds in `[recSample]` for zone
`example.com.` and target alias `lb.example.com`. -/
def toDeleteSample : List ResourceRecord :=
  r53_filter "example.com." (withTrailingDot "lb.example.com") [] [recSample]

/-- The dry-run event trace of `r53_cleanup` on `[recSample]`. -/
def traceSample : List CleanupEvent :=
  [CleanupEvent.snapshotWrite toDeleteSample "/tmp/r53",
   CleanupEvent.snapshotRename "/tmp/r53" ("/tmp/r53" ++ ".yaml")]

/-- The single DELETE change batch `delete_records` submits for
`[recSample]`. -/
def subSampleDelete : Submission :=
  { hostedZoneId := "Z2FDTNDATAQYW2", comment := "Deleting resource records",
    changes := [{ action := "DELETE",
                  resourceRecordSet := { name := "old.example.com.", type := "A",
                                         aliasTarget := atSample } }] }

/-! ## Helper lemmas: the chunking loop -/

theorem chunkLoop_flatten_aux (fuel : Nat) :
    ∀ (l : List ResourceRecord) (start : Nat), l.length - start ≤ fuel →
      (chunkLoop l start).flatten = l.drop start := by
  induction fuel with
  | zero =>
    intro l start h
    rw [chunkLoop]
    have hns : ¬ start < l.length := by omega
    simp only [hns, dite_false, List.flatten_nil]
    exact (List.drop_eq_nil_of_le (by omega)).symm
  | succ n ih =>
    intro l start h
    rw [chunkLoop]
    by_cases hlt : start < l.length
    · simp only [hlt, dite_true, List.flatten_cons]
      rw [ih l (min (start + 100) l.length) (by omega)]
      have hdd : l.drop (min (start + 100) l.length) =
          (l.drop start).drop (min (start + 100) l.length - start) := by
        rw [List.drop_drop]
        congr 1
        omega
      rw [hdd]
      exact List.take_append_drop _ _
    · simp only [hlt, dite_false, List.flatten_nil]
      exact (List.drop_eq_nil_of_le (by omega)).symm

theorem chunkLoop_flatten (l : List ResourceRecord) : (chunkLoop l 0).flatten = l := by
  have h := chunkLoop_flatten_aux l.length l 0 (by omega)
  simpa using h

theorem chunkLoop_length_aux (fuel : Nat) :
    ∀ (l : List ResourceRecord) (start : Nat), l.length - start ≤ fuel →
      (chunkLoop l start).length = (l.length - start + 99) / 100 := by
  induction fuel with
  | zero =>
    intro l start h
    rw [chunkLoop]
    have hns : ¬ start < l.length := by omega
    simp only [hns, dite_false, List.length_nil]
    omega
  | succ n ih =>
    intro l start h
    rw [chunkLoop]
    by_cases hlt : start < l.length
    · simp only [hlt, dite_true, List.length_cons]
      rw [ih l (min (start + 100) l.length) (by omega)]
      omega
    · simp only [hlt, dite_false, List.length_nil]
      omega

theorem chunkLoop_length (l : List ResourceRecord) :
    (chunkLoop l 0).length = (l.length + 99) / 100 := by
  have h := chunkLoop_length_aux l.length l 0 (by omega)
  simpa using h

theorem chunkLoop_mem_aux (fuel : Nat) :
    ∀ (l : List ResourceRecord) (start : Nat), l.length - start ≤ fuel →
      ∀ c ∈ chunkLoop l start, c.length ≤ 100 ∧ c ≠ [] ∧ ∀ r ∈ c, r ∈ l := by
  induction fuel with
  | zero =>
    intro l start h c hc
    rw [chunkLoop] at hc
    have hns : ¬ start < l.length := by omega
    simp only [hns, dite_false] at hc
    exact absurd hc (List.not_mem_nil c)
  | succ n ih =>
    intro l start h c hc
    rw [chunkLoop] at hc
    by_cases hlt : start < l.length
    · simp only [hlt, dite_true, List.mem_cons] at hc
      rcases hc with hc | hc
      · subst hc
        refine ⟨?_, ?_, ?_⟩
        · calc ((l.drop start).take (min (start + 100) l.length - start)).length
              ≤ min (start + 100) l.length - start := List.length_take_le _ _
            _ ≤ 100 := by omega
        · have hlen : ((l.drop start).take (min (start + 100) l.length - start)).length =
              min (min (start + 100) l.length - start) (l.length - start) := by
            rw [List.length_take, List.length_drop]
          have hpos : 0 < ((l.drop start).take (min (start + 100) l.length - start)).length := by
            rw [hlen]; omega
          exact List.ne_nil_of_length_pos hpos
        · intro r hr
          exact List.drop_subset _ _ (List.take_subset _ _ hr)
      · exact ih l (min (start + 100) l.length) (by omega) c hc
    · simp only [hlt, dite_false] at hc
      exact absurd hc (List.not_mem_nil c)

theorem chunkLoop_mem (l : List ResourceRecord) :
    ∀ c ∈ chunkLoop l 0, c.length ≤ 100 ∧ c ≠ [] ∧ ∀ r ∈ c, r ∈ l :=
  chunkLoop_mem_aux l.length l 0 (by omega)

/-! ## Helper lemmas: `optionMapAll` -/

theorem optionMapAll_nil (f : α → Option β) : optionMapAll f [] = some [] := rfl

theorem optionMapAll_cons (f : α → Option β) (a : α) (as : List α) :
    optionMapAll f (a :: as) =
      (f a).bind fun b => (optionMapAll f as).map fun bs => b :: bs := rfl

theorem optionMapAll_some_of_forall (f : α → Option β) :
    ∀ (l : List α), (∀ a ∈ l, ∃ b, f a = some b) →
      ∃ bs, optionMapAll f l = some bs ∧ bs.length = l.length := by
  intro l
  induction l with
  | nil => intro _; exact ⟨[], rfl, rfl⟩
  | cons a as ih =>
    intro h
    obtain ⟨b, hb⟩ := h a (List.mem_cons_self a as)
    obtain ⟨bs, hbs, hlen⟩ := ih fun x hx => h x (List.mem_cons_of_mem a hx)
    refine ⟨b :: bs, ?_, by simp [hlen]⟩
    rw [optionMapAll_cons, hb, hbs]
    rfl

theorem optionMapAll_get (f : α → Option β) :
    ∀ (l : List α) (bs : List β), optionMapAll f l = some bs →
      ∀ (i : Nat) (b : β), bs.get? i = some b →
        ∃ a, l.get? i = some a ∧ f a = some b := by
  intro l
  induction l with
  | nil =>
    intro bs hbs i b hb
    rw [optionMapAll_nil, Option.some_inj] at hbs
    subst hbs
    simp at hb
  | cons a as ih =>
    intro bs hbs i b hb
    rw [optionMapAll_cons] at hbs
    cases hfa : f a with
    | none => rw [hfa] at hbs; simp at hbs
    | some b0 =>
      rw [hfa] at hbs
      cases hrest : optionMapAll f as with
      | none => rw [hrest] at hbs; simp at hbs
      | some bs0 =>
        rw [hrest] at hbs
        simp only [Option.some_bind, Option.map_some', Option.some_inj] at hbs
        subst hbs
        cases i with
        | zero =>
          simp only [List.get?] at hb
          exact ⟨a, rfl, by rw [hfa, hb]⟩
        | succ n =>
          simp only [List.get?] at hb ⊢
          exact ih bs0 hrest n b hb

theorem optionMapAll_mem (f : α → Option β) :
    ∀ (l : List α) (bs : List β), optionMapAll f l = some bs →
      ∀ b ∈ bs, ∃ a ∈ l, f a = some b := by
  intro l
  induction l with
  | nil =>
    intro bs hbs b hb
    rw [optionMapAll_nil, Option.some_inj] at hbs
    subst hbs
    exact absurd hb (List.not_mem_nil b)
  | cons a as ih =>
    intro bs hbs b hb
    rw [optionMapAll_cons] at hbs
    cases hfa : f a with
    | none => rw [hfa] at hbs; simp at hbs
    | some b0 =>
      rw [hfa] at hbs
      cases hrest : optionMapAll f as with
      | none => rw [hrest] at hbs; simp at hbs
      | some bs0 =>
        rw [hrest] at hbs
        simp only [Option.some_bind, Option.map_some', Option.some_inj] at hbs
        subst hbs
        rcases List.mem_cons.mp hb with hb | hb
        · exact ⟨a, List.mem_cons_self a as, by rw [hfa, hb]⟩
        · obtain ⟨x, hx, hfx⟩ := ih bs0 hrest b hb
          exact ⟨x, List.mem_cons_of_mem a hx, hfx⟩

theorem optionMapAll_append (f : α → Option β) :
    ∀ (xs ys : List α) (bs cs : List β),
      optionMapAll f xs = some bs → optionMapAll f ys = some cs →
      optionMapAll f (xs ++ ys) = some (bs ++ cs) := by
  intro xs
  induction xs with
  | nil =>
    intro ys bs cs hbs hcs
    rw [optionMapAll_nil, Option.some_inj] at hbs
    subst hbs
    simpa using hcs
  | cons a as ih =>
    intro ys bs cs hbs hcs
    rw [optionMapAll_cons] at hbs
    cases hfa : f a with
    | none => rw [hfa] at hbs; simp at hbs
    | some b0 =>
      rw [hfa] at hbs
      cases hrest : optionMapAll f as with
      | none => rw [hrest] at hbs; simp at hbs
      | some bs0 =>
        rw [hrest] at hbs
        simp only [Option.some_bind, Option.map_some', Option.some_inj] at hbs
        subst hbs
        rw [List.cons_append, optionMapAll_cons, hfa, ih ys bs0 cs hrest hcs]
        rfl

theorem optionMapAll_length (f : α → Option β) :
    ∀ (l : List α) (bs : List β), optionMapAll f l = some bs → bs.length = l.length := by
  intro l
  induction l with
  | nil =>
    intro bs hbs
    rw [optionMapAll_nil, Option.some_inj] at hbs
    subst hbs; rfl
  | cons a as ih =>
    intro bs hbs
    rw [optionMapAll_cons] at hbs
    cases hfa : f a with
    | none => rw [hfa] at hbs; simp at hbs
    | some b0 =>
      rw [hfa] at hbs
      cases hrest : optionMapAll f as with
      | none => rw [hrest] at hbs; simp at hbs
      | some bs0 =>
        rw [hrest] at hbs
        simp only [Option.some_bind, Option.map_some', Option.some_inj] at hbs
        subst hbs
        simp [ih bs0 hrest]

/-! ## Helper lemmas: the record filter -/

theorem filterStep_eq (zone_name target_alias : String) (keep_list : List String)
    (to_delete : List ResourceRecord) (record : ResourceRecord) :
    filterStep zone_name target_alias keep_list to_delete record =
      to_delete ++
        (if isCandidate zone_name target_alias keep_list record then [record] else []) := by
  unfold filterStep isCandidate
  by_cases h1 : record.type = "A"
  · by_cases h2 : record.name = zone_name
    · simp [h1, h2]
    · by_cases h3 : record.name ∈ keep_list
      · simp [h1, h2, h3]
      · cases ht : record.aliasTarget with
        | none => simp [h1, h2, h3, ht]
        | some t =>
          by_cases h5 : t.dnsName = target_alias
          · simp [h1, h2, h3, ht, h5]
          · simp [h1, h2, h3, ht, h5]
  · simp [h1]

theorem r53_filter_aux (zone_name target_alias : String) (keep_list : List String) :
    ∀ (record_set : List ResourceRecord) (acc : List ResourceRecord),
      record_set.foldl (filterStep zone_name target_alias keep_list) acc =
        acc ++ record_set.filter (isCandidate zone_name target_alias keep_list) := by
  intro record_set
  induction record_set with
  | nil => intro acc; simp
  | cons r rs ih =>
    intro acc
    rw [List.foldl_cons, ih, filterStep_eq, List.filter_cons]
    by_cases h : isCandidate zone_name target_alias keep_list r
    · simp [h]
    · simp [h]

theorem r53_filter_eq (zone_name target_alias : String) (keep_list : List String)
    (record_set : List ResourceRecord) :
    r53_filter zone_name target_alias keep_list record_set =
      record_set.filter (isCandidate zone_name target_alias keep_list) := by
  have h := r53_filter_aux zone_name target_alias keep_list record_set []
  simpa [r53_filter] using h

theorem isCandidate_aliasTarget (zone_name target_alias : String) (keep_list : List String)
    (record : ResourceRecord) (h : isCandidate zone_name target_alias keep_list record = true) :
    ∃ t, record.aliasTarget = some t ∧ t.dnsName = target_alias := by
  unfold isCandidate at h
  cases ht : record.aliasTarget with
  | none => rw [ht] at h; simp at h
  | some t =>
    rw [ht] at h
    simp only [Bool.and_eq_true, beq_iff_eq] at h
    exact ⟨t, rfl, h.2⟩

theorem r53_filter_alias (zone_name target_alias : String) (keep_list : List String)
    (record_set : List ResourceRecord) :
    ∀ r ∈ r53_filter zone_name target_alias keep_list record_set,
      r.aliasTarget.isSome = true := by
  intro r hr
  rw [r53_filter_eq] at hr
  have h := List.of_mem_filter hr
  obtain ⟨t, ht, _⟩ := isCandidate_aliasTarget zone_name target_alias keep_list r h
  rw [ht]; rfl

/-! ## Helper lemmas: chunk submission -/

theorem buildChangeSet_eq (action : String) :
    ∀ (chunk : List ResourceRecord) (ds : List ChangeRecordSet),
      optionMapAll descriptorOf chunk = some ds →
      buildChangeSet action chunk =
        some (ds.map fun d => { action := action, resourceRecordSet := d }) := by
  intro chunk
  induction chunk with
  | nil =>
    intro ds h
    rw [optionMapAll_nil, Option.some_inj] at h
    subst h; rfl
  | cons r rs ih =>
    intro ds h
    rw [optionMapAll_cons] at h
    cases hd : descriptorOf r with
    | none => rw [hd] at h; simp at h
    | some d =>
      rw [hd] at h
      cases hrest : optionMapAll descriptorOf rs with
      | none => rw [hrest] at h; simp at h
      | some ds0 =>
        rw [hrest] at h
        simp only [Option.some_bind, Option.map_some', Option.some_inj] at h
        subst h
        have ihr := ih ds0 hrest
        unfold buildChangeSet at ihr ⊢
        rw [optionMapAll_cons]
        simp only [hd, Option.map_some', Option.some_bind, ihr, List.map_cons]

theorem submitChunk_some (action comment : String) (chunk : List ResourceRecord)
    (hne : chunk ≠ []) (hall : ∀ r ∈ chunk, r.aliasTarget.isSome = true) :
    ∃ sub ds first t,
      submitChunk action comment chunk = some sub ∧
      optionMapAll descriptorOf chunk = some ds ∧
      sub.changes = ds.map (fun d => { action := action, resourceRecordSet := d }) ∧
      sub.comment = comment ∧
      chunk.head? = some first ∧
      first.aliasTarget = some t ∧
      sub.hostedZoneId = t.hostedZoneId := by
  match chunk, hne with
  | r :: rs, _ =>
    have hr := hall r (List.mem_cons_self r rs)
    obtain ⟨t, ht⟩ := Option.isSome_iff_exists.mp hr
    have hds : ∀ x ∈ r :: rs, ∃ d, descriptorOf x = some d := by
      intro x hx
      obtain ⟨u, hu⟩ := Option.isSome_iff_exists.mp (hall x hx)
      refine ⟨{ name := x.name, type := x.type, aliasTarget := u }, ?_⟩
      simp [descriptorOf, hu]
    obtain ⟨ds, hds2, _⟩ := optionMapAll_some_of_forall descriptorOf (r :: rs) hds
    have hbc := buildChangeSet_eq action (r :: rs) ds hds2
    refine ⟨{ hostedZoneId := t.hostedZoneId, comment := comment,
              changes := ds.map fun d => { action := action, resourceRecordSet := d } },
            ds, r, t, ?_, hds2, rfl, rfl, rfl, ht, rfl⟩
    simp [submitChunk, ht, hbc]

theorem submitChunk_inv (action comment : String) (chunk : List ResourceRecord)
    (sub : Submission) (h : submitChunk action comment chunk = some sub) :
    ∃ first t, chunk.head? = some first ∧ first.aliasTarget = some t ∧
      sub.hostedZoneId = t.hostedZoneId := by
  cases chunk with
  | nil => simp [submitChunk] at h
  | cons r rs =>
    cases ht : r.aliasTarget with
    | none => simp [submitChunk, ht] at h
    | some t =>
      cases hbc : buildChangeSet action (r :: rs) with
      | none => simp [submitChunk, ht, hbc] at h
      | some cs =>
        unfold submitChunk at h
        simp only [List.head?_cons, Option.some_bind, ht, hbc, Option.map_some',
          Option.some_inj] at h
        exact ⟨r, t, rfl, ht, by rw [← h]⟩

theorem batch_chunks (action comment : String) :
    ∀ (chunks : List (List ResourceRecord)),
      (∀ c ∈ chunks, c ≠ [] ∧ ∀ r ∈ c, r.aliasTarget.isSome = true) →
      ∃ subs ds,
        optionMapAll (submitChunk action comment) chunks = some subs ∧
        optionMapAll descriptorOf chunks.flatten = some ds ∧
        subs.length = chunks.length ∧
        (∀ s ∈ subs, ∃ c ∈ chunks, s.changes.length = c.length ∧ s.comment = comment) ∧
        (subs.map fun s => s.changes.map fun ch => ch.resourceRecordSet).flatten = ds := by
  intro chunks
  induction chunks with
  | nil => exact fun _ => ⟨[], [], rfl, rfl, rfl, by simp, rfl⟩
  | cons c cs ih =>
    intro h
    obtain ⟨hne, hall⟩ := h c (List.mem_cons_self c cs)
    obtain ⟨subs0, ds0, hs0, hd0, hlen0, hmem0, hjoin0⟩ :=
      ih fun x hx => h x (List.mem_cons_of_mem c hx)
    obtain ⟨sub, ds1, first, t, hsub, hds1, hch, hcm, _, _, _⟩ :=
      submitChunk_some action comment c hne hall
    refine ⟨sub :: subs0, ds1 ++ ds0, ?_, ?_, by simp [hlen0], ?_, ?_⟩
    · rw [optionMapAll_cons, hsub, hs0]; rfl
    · rw [List.flatten_cons]
      exact optionMapAll_append descriptorOf c cs.flatten ds1 ds0 hds1 hd0
    · intro s hs
      rcases List.mem_cons.mp hs with hs | hs
      · subst hs
        refine ⟨c, List.mem_cons_self c cs, ?_, hcm⟩
        rw [hch, List.length_map]
        exact (optionMapAll_length descriptorOf c ds1 hds1).symm ▸ rfl
      · obtain ⟨c0, hc0, hlc⟩ := hmem0 s hs
        exact ⟨c0, List.mem_cons_of_mem c hc0, hlc⟩
    · rw [List.map_cons, List.flatten_cons, hjoin0, hch, List.map_map]
      congr 1
      have hid : ((fun ch : Change => ch.resourceRecordSet) ∘ fun d : ChangeRecordSet =>
          ({ action := action, resourceRecordSet := d } : Change)) = id := rfl
      rw [hid, List.map_id]

theorem batcher_spec (action comment : String) (l : List ResourceRecord)
    (h : ∀ r ∈ l, r.aliasTarget.isSome = true) :
    ∃ subs ds,
      optionMapAll (submitChunk action comment) (chunkLoop l 0) = some subs ∧
      optionMapAll descriptorOf l = some ds ∧
      subs.length = (l.length + 99) / 100 ∧
      (∀ s ∈ subs, s.changes.length ≤ 100) ∧
      (subs.map fun s => s.changes.map fun ch => ch.resourceRecordSet).flatten = ds := by
  have hgood : ∀ c ∈ chunkLoop l 0, c ≠ [] ∧ ∀ r ∈ c, r.aliasTarget.isSome = true := by
    intro c hc
    obtain ⟨_, hne, hsub⟩ := chunkLoop_mem l c hc
    exact ⟨hne, fun r hr => h r (hsub r hr)⟩
  obtain ⟨subs, ds, hs, hd, hlen, hmem, hjoin⟩ := batch_chunks action comment (chunkLoop l 0) hgood
  rw [chunkLoop_flatten] at hd
  refine ⟨subs, ds, hs, hd, ?_, ?_, hjoin⟩
  · rw [hlen, chunkLoop_length]
  · intro s hs2
    obtain ⟨c, hc, hlc, _⟩ := hmem s hs2
    obtain ⟨hle, _, _⟩ := chunkLoop_mem l c hc
    omega

/-! ## Helper lemmas: snapshot serialization -/

theorem lookup_map_str (k : String) :
    ∀ (l : List (String × String)),
      List.lookup k (l.map fun kv => (kv.1, Yaml.str kv.2)) =
        (List.lookup k l).map Yaml.str := by
  intro l
  induction l with
  | nil => rfl
  | cons kv rest ih =>
    obtain ⟨a, b⟩ := kv
    simp only [List.map_cons]
    cases h : k == a with
    | true => simp [List.lookup, h]
    | false => simpa [List.lookup, h] using ih

theorem loadedName_recordToYaml (r : ResourceRecord) :
    loadedName (recordToYaml r) = some r.name := by
  cases ht : r.aliasTarget <;>
    simp [loadedName, recordToYaml, Yaml.lookup, Yaml.asStr, List.lookup, ht]

theorem loadedType_recordToYaml (r : ResourceRecord) :
    loadedType (recordToYaml r) = some r.type := by
  cases ht : r.aliasTarget <;>
    simp [loadedType, recordToYaml, Yaml.lookup, Yaml.asStr, List.lookup, ht]

theorem aliasTargetFromYaml_str (s : String) : aliasTargetFromYaml (Yaml.str s) = none := rfl

theorem loadedAliasTarget_recordToYaml (r : ResourceRecord) :
    loadedAliasTarget (recordToYaml r) = r.aliasTarget := by
  cases ht : r.aliasTarget with
  | some t =>
    simp [loadedAliasTarget, recordToYaml, ht, Yaml.lookup, aliasTargetFromYaml,
      aliasTargetToYaml, Yaml.asStr, Yaml.asBool, List.lookup]
  | none =>
    simp only [loadedAliasTarget, recordToYaml, ht, Yaml.lookup]
    have hentries : ([("Name", Yaml.str r.name), ("Type", Yaml.str r.type)] ++ [] ++
        r.extra.map fun kv => (kv.1, Yaml.str kv.2)) =
        ("Name", Yaml.str r.name) :: ("Type", Yaml.str r.type) ::
          r.extra.map fun kv => (kv.1, Yaml.str kv.2) := by simp
    rw [hentries]
    simp only [List.lookup]
    rw [lookup_map_str]
    cases hlk : List.lookup "AliasTarget" r.extra with
    | none => simp [hlk]
    | some v => simp [hlk, aliasTargetFromYaml_str]

/-! ## Helper lemmas: the record lister -/

theorem listRecordsGo_error (e : Unit) :
    ∀ (pages : List RecordPage) (acc : List ResourceRecord),
      (∀ p ∈ pages, p.isTruncated = true) →
      listRecordsGo (pages.map Except.ok ++ [Except.error e]) acc =
        acc ++ (pages.map fun p => p.resourceRecordSets).flatten := by
  intro pages
  induction pages with
  | nil => intro acc _; simp [listRecordsGo]
  | cons p ps ih =>
    intro acc h
    have hp := h p (List.mem_cons_self p ps)
    simp only [List.map_cons, List.cons_append, listRecordsGo, hp, if_true, List.append_eq]
    rw [ih (acc ++ p.resourceRecordSets) (fun q hq => h q (List.mem_cons_of_mem p hq))]
    simp [List.append_assoc]

/-! ## More helper lemmas -/

theorem isCandidate_iff (zone_name target_alias : String) (keep_list : List String)
    (record : ResourceRecord) :
    isCandidate zone_name target_alias keep_list record = true ↔
      (record.type = "A" ∧ record.name ≠ zone_name ∧ record.name ∉ keep_list ∧
        ∃ t, record.aliasTarget = some t ∧ t.dnsName = target_alias) := by
  unfold isCandidate
  cases ht : record.aliasTarget with
  | none => simp [ht]
  | some t => simp [ht, and_assoc]

theorem chunkLoop_nil : chunkLoop [] 0 = [] := by
  rw [chunkLoop]
  simp

theorem chunkLoop_singleton (r : ResourceRecord) : chunkLoop [r] 0 = [[r]] := by
  rw [chunkLoop, chunkLoop]
  simp

/-! ## Claim theorems -/

/-- C1: For every record R in the listed record set, the delete-workflow
filter of `r53_cleanup` appends R to the to-delete list iff the type of R
equals `A`, the name of R is not the zone apex name, the name of R is not
in the expanded keep list, R carries an `AliasTarget`, and the `DNSName`
of that target equals
the target alias normalized with a trailing dot. The filter loop equals a
pure `List.filter` of the record set by the spec predicate `isCandidate`
(the nesting of `filterStep` encodes the check order with first match
winning), and it has no effect on the record set itself. -/
theorem c1_filter_iff (zone_name target_alias : String) (keep_list : List String)
    (record_set : List ResourceRecord) :
    r53_filter zone_name (withTrailingDot target_alias) keep_list record_set =
      record_set.filter (isCandidate zone_name (withTrailingDot target_alias) keep_list) ∧
    ∀ r ∈ record_set,
      (r ∈ r53_filter zone_name (withTrailingDot target_alias) keep_list record_set ↔
        (r.type = "A" ∧ r.name ≠ zone_name ∧ r.name ∉ keep_list ∧
          ∃ t, r.aliasTarget = some t ∧ t.dnsName = withTrailingDot target_alias)) := by
  refine ⟨r53_filter_eq zone_name (withTrailingDot target_alias) keep_list record_set, ?_⟩
  intro r hr
  rw [r53_filter_eq, List.mem_filter, ← isCandidate_iff]
  simp [hr]

/-- Witness for C1: in a three-record set where exactly `recSample` meets all
criteria, the filter keeps exactly that record. -/
theorem c1_filter_iff_witness :
    (r53_filter "example.com." (withTrailingDot "lb.example.com") []
        [recSample, recNoAlias, recTxt] =
      [recSample, recNoAlias, recTxt].filter
        (isCandidate "example.com." (withTrailingDot "lb.example.com") [])) ∧
    r53_filter "example.com." (withTrailingDot "lb.example.com") []
        [recSample, recNoAlias, recTxt] = [recSample] :=
  ⟨(c1_filter_iff "example.com." "lb.example.com" [] [recSample, recNoAlias, recTxt]).1,
   by decide⟩

/-- C6 counterexample: `expand_keep_list` is not idempotent. Expanding the
keep list `["www"]` for zone `example.com.` once gives
`["www.example.com."]`; expanding again appends the zone suffix a second
time, giving `["www.example.com..example.com."]`. -/
theorem c6_counterexample :
    expand_keep_list "example.com." (expand_keep_list "example.com." ["www"]) ≠
      expand_keep_list "example.com." ["www"] := by decide

/-- C6 amended: `expand_keep_list` is not idempotent — a second application
with the same zone name appends a dot plus the zone name to every entry
again, so
applying it twice agrees with applying it once exactly when the keep list
is empty. -/
theorem c6_expand_twice_iff (zone_name : String) (keep_list : List String) :
    expand_keep_list zone_name (expand_keep_list zone_name keep_list) =
      expand_keep_list zone_name keep_list ↔ keep_list = [] := by
  constructor
  · intro h
    cases keep_list with
    | nil => rfl
    | cons a t =>
      exfalso
      simp only [expand_keep_list, List.map_cons, List.cons.injEq] at h
      have hlen := congrArg String.length h.1
      simp only [String.length_append] at hlen
      have hdot : ("." : String).length = 1 := rfl
      rw [hdot] at hlen
      omega
  · intro h
    subst h
    rfl

/-- Witness for C6 (amended): on the empty keep list the two-fold expansion
does coincide with the single expansion. -/
theorem c6_expand_twice_iff_witness :
    expand_keep_list "example.com." (expand_keep_list "example.com." []) =
      expand_keep_list "example.com." [] :=
  (c6_expand_twice_iff "example.com." []).mpr rfl

/-- C7 counterexample: page 1 is fetched (truncated), the fetch of page 2
raises a ClientError. `get_all_records_in_zone` returns the records of
page 1 — a non-empty strict prefix of the record set of the zone (the
complete set is
what the error-free run returns), so partial results are not discarded. -/
theorem c7_counterexample :
    get_all_records_in_zone [Except.ok pageOne, Except.error ()] = [recSample] ∧
    get_all_records_in_zone [Except.ok pageOne, Except.ok pageTwo] =
      [recSample, recNoAlias] ∧
    [recSample] ≠ ([] : List ResourceRecord) ∧
    ([recSample] : List ResourceRecord) ≠ [recSample, recNoAlias] := by
  refine ⟨rfl, rfl, by decide, by decide⟩

/-- C7 amended: when a page fetch fails, `get_all_records_in_zone` returns
exactly the records accumulated from the pages fetched before the failure
(possibly a non-empty strict prefix of the records of the zone); the
partial
list is silently returned, not discarded. -/
theorem c7_partial_on_error (pages : List RecordPage) (e : Unit)
    (h : ∀ p ∈ pages, p.isTruncated = true) :
    get_all_records_in_zone (pages.map Except.ok ++ [Except.error e]) =
      (pages.map fun p => p.resourceRecordSets).flatten := by
  unfold get_all_records_in_zone
  rw [listRecordsGo_error e pages [] h]
  simp

/-- Witness for C7 (amended) at the one-page provider run. -/
theorem c7_partial_on_error_witness :
    (∀ p ∈ [pageOne], p.isTruncated = true) ∧
    get_all_records_in_zone ([pageOne].map Except.ok ++ [Except.error ()]) =
      ([pageOne].map fun p => p.resourceRecordSets).flatten :=
  ⟨by decide, c7_partial_on_error [pageOne] () (by decide)⟩

/-- C9: the change batcher on an empty record list makes zero submissions
and returns normally (both paths), and every chunk the loop slices from any
input is non-empty, so the `records_to_process[0]` access used to derive the
zone id is always in bounds. -/
theorem c9_empty_and_nonempty_chunks :
    delete_records [] = some [] ∧ restore_deleted_records [] = some [] ∧
    ∀ (l : List ResourceRecord), ∀ c ∈ chunkLoop l 0,
      c ≠ [] ∧ c.head?.isSome = true := by
  refine ⟨?_, ?_, ?_⟩
  · simp [delete_records, chunkLoop_nil, optionMapAll]
  · simp [restore_deleted_records, chunkLoop_nil, optionMapAll]
  · intro l c hc
    have hne := (chunkLoop_mem l c hc).2.1
    refine ⟨hne, ?_⟩
    cases c with
    | nil => exact absurd rfl hne
    | cons a as => rfl

/-- Witness for C9: the singleton list produces the single non-empty chunk
`[recSample]`. -/
theorem c9_empty_and_nonempty_chunks_witness :
    ([recSample] ∈ chunkLoop [recSample] 0) ∧
    ([recSample] : List ResourceRecord) ≠ [] ∧
    ([recSample] : List ResourceRecord).head?.isSome = true :=
  have hmem : [recSample] ∈ chunkLoop [recSample] 0 := by
    rw [chunkLoop_singleton]
    exact List.mem_singleton.mpr rfl
  ⟨hmem, c9_empty_and_nonempty_chunks.2.2 [recSample] [recSample] hmem⟩

theorem chunkLoop_get_length_aux (fuel : Nat) :
    ∀ (l : List ResourceRecord) (start i : Nat) (c : List ResourceRecord),
      l.length - start ≤ fuel → (chunkLoop l start).get? i = some c →
      c.length = min 100 (l.length - (start + 100 * i)) := by
  induction fuel with
  | zero =>
    intro l start i c h hc
    rw [chunkLoop] at hc
    have hns : ¬ start < l.length := by omega
    simp [hns] at hc
  | succ n ih =>
    intro l start i c h hc
    rw [chunkLoop] at hc
    by_cases hlt : start < l.length
    · simp only [hlt, dite_true] at hc
      cases i with
      | zero =>
        simp only [List.get?, Option.some_inj] at hc
        subst hc
        rw [List.length_take, List.length_drop]
        omega
      | succ j =>
        simp only [List.get?] at hc
        have hrec := ih l (min (start + 100) l.length) j c (by omega) hc
        omega
    · simp only [hlt, dite_false] at hc
      simp at hc

/-- Exact greedy chunk sizes: the i-th chunk the loop slices holds exactly
`min 100 (N - 100 * i)` records — 100 per full batch and the remainder in
the last one. -/
theorem chunkLoop_get_length (l : List ResourceRecord) (i : Nat) (c : List ResourceRecord)
    (hc : (chunkLoop l 0).get? i = some c) :
    c.length = min 100 (l.length - 100 * i) := by
  have h := chunkLoop_get_length_aux l.length l 0 i c (by omega) hc
  omega

theorem submitChunk_changes_length (action comment : String) (chunk : List ResourceRecord)
    (sub : Submission) (h : submitChunk action comment chunk = some sub) :
    sub.changes.length = chunk.length := by
  cases chunk with
  | nil => simp [submitChunk] at h
  | cons r rs =>
    cases ht : r.aliasTarget with
    | none => simp [submitChunk, ht] at h
    | some t =>
      cases hbc : buildChangeSet action (r :: rs) with
      | none => simp [submitChunk, ht, hbc] at h
      | some cs =>
        unfold submitChunk at h
        simp only [List.head?_cons, Option.some_bind, ht, hbc, Option.map_some',
          Option.some_inj] at h
        unfold buildChangeSet at hbc
        have hlen := optionMapAll_length _ (r :: rs) cs hbc
        rw [← h]
        exact hlen

/-- C2: for any record list of length N fed to the change batcher (delete
and restore paths) whose records all carry alias targets, the loop submits
ceil(N/100) = (N + 99) / 100 change batches, each with at most 100 change
entries; the i-th batch holds exactly `min 100 (N - 100 * i)` entries (the
greedy sizes, e.g. 100 and 50 for N = 150), batches go out in input order,
and the concatenation of the record descriptors of the batches in
submission order is exactly the per-record descriptors of the input list in
order (the chunks themselves concatenate back to the input list). -/
theorem c2_chunk_batches (l : List ResourceRecord)
    (h : ∀ r ∈ l, r.aliasTarget.isSome = true) :
    (chunkLoop l 0).flatten = l ∧
    ∃ delSubs resSubs descs,
      delete_records l = some delSubs ∧
      restore_deleted_records l = some resSubs ∧
      optionMapAll descriptorOf l = some descs ∧
      delSubs.length = (l.length + 99) / 100 ∧
      resSubs.length = (l.length + 99) / 100 ∧
      (∀ s ∈ delSubs, s.changes.length ≤ 100) ∧
      (∀ s ∈ resSubs, s.changes.length ≤ 100) ∧
      (∀ i s, delSubs.get? i = some s → s.changes.length = min 100 (l.length - 100 * i)) ∧
      (∀ i s, resSubs.get? i = some s → s.changes.length = min 100 (l.length - 100 * i)) ∧
      (delSubs.map fun s => s.changes.map fun ch => ch.resourceRecordSet).flatten = descs ∧
      (resSubs.map fun s => s.changes.map fun ch => ch.resourceRecordSet).flatten = descs := by
  refine ⟨chunkLoop_flatten l, ?_⟩
  obtain ⟨ds1, dd1, h1, hd1, hl1, hm1, hj1⟩ :=
    batcher_spec "DELETE" "Deleting resource records" l h
  obtain ⟨ds2, dd2, h2, hd2, hl2, hm2, hj2⟩ :=
    batcher_spec "UPSERT" "Restoring resource records" l h
  have hdd : dd1 = dd2 := by
    rw [hd1] at hd2
    exact Option.some_inj.mp hd2
  have hidx : ∀ (action comment : String) (subs : List Submission),
      optionMapAll (submitChunk action comment) (chunkLoop l 0) = some subs →
      ∀ i s, subs.get? i = some s → s.changes.length = min 100 (l.length - 100 * i) := by
    intro action comment subs hsubs i s hs
    obtain ⟨chunk, hchunk, hf⟩ :=
      optionMapAll_get (submitChunk action comment) (chunkLoop l 0) subs hsubs i s hs
    rw [submitChunk_changes_length action comment chunk s hf]
    exact chunkLoop_get_length l i chunk hchunk
  exact ⟨ds1, ds2, dd1, h1, h2, hd1, hl1, hl2, hm1, hm2,
    hidx "DELETE" "Deleting resource records" ds1 h1,
    hidx "UPSERT" "Restoring resource records" ds2 h2,
    hj1, by rw [hdd]; exact hj2⟩

/-- Witness for C2: a 150-record snapshot restores (and deletes) in exactly
ceil(150/100) = 2 batches with the exact greedy sizes
`min 100 (150 - 100 * 0) = 100` and `min 100 (150 - 100 * 1) = 50`,
reproducing the input in order. -/
theorem c2_chunk_batches_witness :
    (∀ r ∈ List.replicate 150 recSample, r.aliasTarget.isSome = true) ∧
    ((List.replicate 150 recSample).length + 99) / 100 = 2 ∧
    min 100 ((List.replicate 150 recSample).length - 100 * 0) = 100 ∧
    min 100 ((List.replicate 150 recSample).length - 100 * 1) = 50 ∧
    ((chunkLoop (List.replicate 150 recSample) 0).flatten = List.replicate 150 recSample ∧
      ∃ delSubs resSubs descs,
        delete_records (List.replicate 150 recSample) = some delSubs ∧
        restore_deleted_records (List.replicate 150 recSample) = some resSubs ∧
        optionMapAll descriptorOf (List.replicate 150 recSample) = some descs ∧
        delSubs.length = ((List.replicate 150 recSample).length + 99) / 100 ∧
        resSubs.length = ((List.replicate 150 recSample).length + 99) / 100 ∧
        (∀ s ∈ delSubs, s.changes.length ≤ 100) ∧
        (∀ s ∈ resSubs, s.changes.length ≤ 100) ∧
        (∀ i s, delSubs.get? i = some s →
          s.changes.length = min 100 ((List.replicate 150 recSample).length - 100 * i)) ∧
        (∀ i s, resSubs.get? i = some s →
          s.changes.length = min 100 ((List.replicate 150 recSample).length - 100 * i)) ∧
        (delSubs.map fun s => s.changes.map fun ch => ch.resourceRecordSet).flatten = descs ∧
        (resSubs.map fun s => s.changes.map fun ch => ch.resourceRecordSet).flatten = descs) :=
  have hyp : ∀ r ∈ List.replicate 150 recSample, r.aliasTarget.isSome = true := by
    intro r hr
    rw [List.eq_of_mem_replicate hr]
    rfl
  ⟨hyp, by simp, by simp, by simp, c2_chunk_batches (List.replicate 150 recSample) hyp⟩

/-- C3: in every completed delete-workflow run the snapshot is written and
renamed to its final `.yaml` path as the first two events, with the exact
filtered candidate list, and every delete change-batch call occurs at a
strictly later position in the trace — no delete call precedes completion
of the snapshot write. -/
theorem c3_snapshot_before_delete (zone_name target_alias : String) (keep_list : List String)
    (record_set : List ResourceRecord) (temp_path : String) (dryrun : Bool)
    (trace : List CleanupEvent)
    (h : r53_cleanup zone_name target_alias keep_list record_set temp_path dryrun = some trace) :
    trace.get? 0 = some (CleanupEvent.snapshotWrite
      (r53_filter zone_name (withTrailingDot target_alias) keep_list record_set) temp_path) ∧
    trace.get? 1 = some (CleanupEvent.snapshotRename temp_path (temp_path ++ ".yaml")) ∧
    ∀ i sub, trace.get? i = some (CleanupEvent.deleteCall sub) → 2 ≤ i := by
  cases dryrun with
  | true =>
    simp only [r53_cleanup] at h
    rw [if_pos trivial, Option.some_inj] at h
    subst h
    refine ⟨rfl, rfl, ?_⟩
    intro i sub hi
    match i with
    | 0 => simp at hi
    | 1 => simp at hi
    | n + 2 => omega
  | false =>
    simp only [r53_cleanup] at h
    rw [if_neg (by simp)] at h
    cases hdel : delete_records
        (r53_filter zone_name (withTrailingDot target_alias) keep_list record_set) with
    | none => rw [hdel] at h; simp at h
    | some subs =>
      rw [hdel] at h
      simp only [Option.map_some', Option.some_inj] at h
      subst h
      refine ⟨rfl, rfl, ?_⟩
      intro i sub hi
      match i with
      | 0 => simp at hi
      | 1 => simp at hi
      | n + 2 => omega

/-- Witness for C3: a concrete dry run whose trace starts with the snapshot
write and rename. -/
theorem c3_snapshot_before_delete_witness :
    (r53_cleanup "example.com." "lb.example.com" [] [recSample] "/tmp/r53" true =
      some traceSample) ∧
    (traceSample.get? 0 = some (CleanupEvent.snapshotWrite
        (r53_filter "example.com." (withTrailingDot "lb.example.com") [] [recSample])
        "/tmp/r53") ∧
      traceSample.get? 1 =
        some (CleanupEvent.snapshotRename "/tmp/r53" ("/tmp/r53" ++ ".yaml")) ∧
      ∀ i sub, traceSample.get? i = some (CleanupEvent.deleteCall sub) → 2 ≤ i) :=
  ⟨rfl, c3_snapshot_before_delete "example.com." "lb.example.com" [] [recSample] "/tmp/r53"
    true traceSample rfl⟩

/-- C4: serializing any candidate record list with the snapshot writer and
reading the result back the way the restore driver does yields a list of
the same length, in the same order, whose `Name`, `Type` and `AliasTarget`
(`HostedZoneId`, `DNSName`, `EvaluateTargetHealth`) fields equal those of
the original records — including the empty list and records with extra
provider fields or no alias target. -/
theorem c4_snapshot_roundtrip (records : List ResourceRecord) :
    ∃ ys, snapshot_load (snapshot_dump records) = some ys ∧
      ys.length = records.length ∧
      ys.map loadedName = records.map (fun r => some r.name) ∧
      ys.map loadedType = records.map (fun r => some r.type) ∧
      ys.map loadedAliasTarget = records.map (fun r => r.aliasTarget) := by
  refine ⟨records.map recordToYaml, rfl, by simp, ?_, ?_, ?_⟩
  · rw [List.map_map]
    exact List.map_congr_left fun r _ => loadedName_recordToYaml r
  · rw [List.map_map]
    exact List.map_congr_left fun r _ => loadedType_recordToYaml r
  · rw [List.map_map]
    exact List.map_congr_left fun r _ => loadedAliasTarget_recordToYaml r

/-- Witness for C4 on a three-record list covering an alias record, a record
with no alias target, and a record with an extra provider field. -/
theorem c4_snapshot_roundtrip_witness :
    ∃ ys, snapshot_load (snapshot_dump [recSample, recNoAlias, recExtra]) = some ys ∧
      ys.length = [recSample, recNoAlias, recExtra].length ∧
      ys.map loadedName = [recSample, recNoAlias, recExtra].map (fun r => some r.name) ∧
      ys.map loadedType = [recSample, recNoAlias, recExtra].map (fun r => some r.type) ∧
      ys.map loadedAliasTarget = [recSample, recNoAlias, recExtra].map (fun r => r.aliasTarget) :=
  c4_snapshot_roundtrip [recSample, recNoAlias, recExtra]

/-- C5: in dry-run mode `r53_cleanup` still writes and renames the snapshot
holding exactly the candidate records of the filter, and issues zero
delete
change-batch calls: the trace is exactly the two snapshot events and
contains no `deleteCall`. -/
theorem c5_dryrun (zone_name target_alias : String) (keep_list : List String)
    (record_set : List ResourceRecord) (temp_path : String) :
    r53_cleanup zone_name target_alias keep_list record_set temp_path true =
      some [CleanupEvent.snapshotWrite
              (r53_filter zone_name (withTrailingDot target_alias) keep_list record_set)
              temp_path,
            CleanupEvent.snapshotRename temp_path (temp_path ++ ".yaml")] ∧
    ∀ trace,
      r53_cleanup zone_name target_alias keep_list record_set temp_path true = some trace →
      ∀ sub, CleanupEvent.deleteCall sub ∉ trace := by
  have heq : r53_cleanup zone_name target_alias keep_list record_set temp_path true =
      some [CleanupEvent.snapshotWrite
              (r53_filter zone_name (withTrailingDot target_alias) keep_list record_set)
              temp_path,
            CleanupEvent.snapshotRename temp_path (temp_path ++ ".yaml")] := rfl
  refine ⟨heq, ?_⟩
  intro trace htrace sub hmem
  rw [heq, Option.some_inj] at htrace
  subst htrace
  simp at hmem

/-- Witness for C5: the dry-run scenario of the spec — of 3 records exactly 1
matches all filter criteria; the snapshot event carries exactly that record
and the trace has no delete call. -/
theorem c5_dryrun_witness :
    (r53_cleanup "example.com." "lb.example.com" [] [recSample, recNoAlias, recTxt]
        "/tmp/snapshot" true =
      some [CleanupEvent.snapshotWrite
              (r53_filter "example.com." (withTrailingDot "lb.example.com") []
                [recSample, recNoAlias, recTxt]) "/tmp/snapshot",
            CleanupEvent.snapshotRename "/tmp/snapshot" ("/tmp/snapshot" ++ ".yaml")]) ∧
    r53_filter "example.com." (withTrailingDot "lb.example.com") []
        [recSample, recNoAlias, recTxt] = [recSample] :=
  ⟨(c5_dryrun "example.com." "lb.example.com" [] [recSample, recNoAlias, recTxt]
      "/tmp/snapshot").1,
   by decide⟩

/-- C8: for every non-empty chunk either batching path submits, the
`HostedZoneId` passed to the provider call equals the
`AliasTarget.HostedZoneId` of the first record of that chunk (no separately
supplied zone id is used). -/
theorem c8_zone_from_first (l : List ResourceRecord) :
    (∀ subs, delete_records l = some subs →
      ∀ i sub, subs.get? i = some sub →
        ∃ chunk first t, (chunkLoop l 0).get? i = some chunk ∧
          chunk.head? = some first ∧ first.aliasTarget = some t ∧
          sub.hostedZoneId = t.hostedZoneId) ∧
    (∀ subs, restore_deleted_records l = some subs →
      ∀ i sub, subs.get? i = some sub →
        ∃ chunk first t, (chunkLoop l 0).get? i = some chunk ∧
          chunk.head? = some first ∧ first.aliasTarget = some t ∧
          sub.hostedZoneId = t.hostedZoneId) := by
  constructor
  · intro subs hsubs i sub hsub
    obtain ⟨chunk, hchunk, hf⟩ :=
      optionMapAll_get (submitChunk "DELETE" "Deleting resource records")
        (chunkLoop l 0) subs hsubs i sub hsub
    obtain ⟨first, t, h1, h2, h3⟩ :=
      submitChunk_inv "DELETE" "Deleting resource records" chunk sub hf
    exact ⟨chunk, first, t, hchunk, h1, h2, h3⟩
  · intro subs hsubs i sub hsub
    obtain ⟨chunk, hchunk, hf⟩ :=
      optionMapAll_get (submitChunk "UPSERT" "Restoring resource records")
        (chunkLoop l 0) subs hsubs i sub hsub
    obtain ⟨first, t, h1, h2, h3⟩ :=
      submitChunk_inv "UPSERT" "Restoring resource records" chunk sub hf
    exact ⟨chunk, first, t, hchunk, h1, h2, h3⟩

/-- Witness for C8: the single batch `delete_records` submits for
`[recSample]` carries the alias-target zone id of `recSample`. -/
theorem c8_zone_from_first_witness :
    (delete_records [recSample] = some [subSampleDelete]) ∧
    ∃ chunk first t, (chunkLoop [recSample] 0).get? 0 = some chunk ∧
      chunk.head? = some first ∧ first.aliasTarget = some t ∧
      subSampleDelete.hostedZoneId = t.hostedZoneId :=
  have hdel : delete_records [recSample] = some [subSampleDelete] := by
    unfold delete_records
    rw [chunkLoop_singleton]
    rfl
  ⟨hdel, (c8_zone_from_first [recSample]).1 [subSampleDelete] hdel 0 subSampleDelete rfl⟩

/-- C10: every record the delete-workflow filter appends to the to-delete
list carries an `AliasTarget`, so on any candidate list the filter
produces, the AliasTarget accesses of `delete_records` all
succeed (the batching run returns `some`). -/
theorem c10_filter_guarantees_alias (zone_name target_alias : String)
    (keep_list : List String) (record_set : List ResourceRecord) :
    (∀ r ∈ r53_filter zone_name target_alias keep_list record_set,
      r.aliasTarget.isSome = true) ∧
    (delete_records (r53_filter zone_name target_alias keep_list record_set)).isSome = true := by
  have halias := r53_filter_alias zone_name target_alias keep_list record_set
  refine ⟨halias, ?_⟩
  obtain ⟨subs, ds, hs, -, -, -, -⟩ :=
    batcher_spec "DELETE" "Deleting resource records" _ halias
  have hds : delete_records (r53_filter zone_name target_alias keep_list record_set) =
      some subs := hs
  rw [hds]
  rfl

/-- Witness for C10 at a concrete record set containing a record without an
alias target. -/
theorem c10_filter_guarantees_alias_witness :
    (∀ r ∈ r53_filter "example.com." "lb.example.com." [] [recSample, recNoAlias, recTxt],
      r.aliasTarget.isSome = true) ∧
    (delete_records (r53_filter "example.com." "lb.example.com." []
      [recSample, recNoAlias, recTxt])).isSome = true :=
  c10_filter_guarantees_alias "example.com." "lb.example.com." [] [recSample, recNoAlias, recTxt]
